import Mathlib

/-!
Shallow embedding of the genomic sequence clustering core
(`src/P2.py` pairwise DP aligner, `src/P3.py` validator / distance matrix),
with theorems checking the natural-language specification against it.

Sequences are `List Char`; Python dicts are insertion-ordered association
lists; functions that can raise `Exception` return `Except String`.
-/

namespace P2

/-- Substitution score used inside `fill_matrix`:
`match if seq1[i-1] == seq2[j-1] else mismatch`. -/
def sval (mtc mis : Int) (a b : Char) : Int :=
  if a = b then mtc else mis

/-- The `score` matrix of `fill_matrix(seq1, seq2, match, mismatch, gap)`
(`src/P2.py`, lines 68-94), as a function of the cell indices.
Row 0 and column 0 hold `i * gap` / `j * gap`; an inner cell is the max of
the diagonal, up and left candidates. -/
def score (s1 s2 : List Char) (mtc mis gp : Int) : Nat → Nat → Int
  | i, 0 => (i : Int) * gp
  | 0, j => (j : Int) * gp
  | i + 1, j + 1 =>
      let diag := score s1 s2 mtc mis gp i j + sval mtc mis (s1.getD i 'X') (s2.getD j 'X')
      let up := score s1 s2 mtc mis gp i (j + 1) + gp
      let left := score s1 s2 mtc mis gp (i + 1) j + gp
      max diag (max up left)
termination_by i j => i + j

/-- The `diag` candidate computed by `fill_matrix` for inner cell
`(i+1, j+1)` (`src/P2.py`, lines 85-88). -/
def diagCand (s1 s2 : List Char) (mtc mis gp : Int) (i j : Nat) : Int :=
  score s1 s2 mtc mis gp i j + sval mtc mis (s1.getD i 'X') (s2.getD j 'X')

/-- The `up` candidate computed by `fill_matrix` for inner cell
`(i+1, j+1)` (`src/P2.py`, line 90). -/
def upCand (s1 s2 : List Char) (mtc mis gp : Int) (i j : Nat) : Int :=
  score s1 s2 mtc mis gp i (j + 1) + gp

/-- The `left` candidate computed by `fill_matrix` for inner cell
`(i+1, j+1)` (`src/P2.py`, line 91). -/
def leftCand (s1 s2 : List Char) (mtc mis gp : Int) (i j : Nat) : Int :=
  score s1 s2 mtc mis gp (i + 1) j + gp

/-- The `traceback` direction matrix of `fill_matrix` (`src/P2.py`, lines 70-102):
column 0 stores 1 (up), row 0 stores 2 (left), cell (0,0) keeps the
`np.zeros` value 0, and an inner cell stores 0 if the maximum equals the
diagonal candidate, else 1 if it equals the up candidate, else 2. -/
def dirM (s1 s2 : List Char) (mtc mis gp : Int) : Nat → Nat → Nat
  | 0, 0 => 0
  | _ + 1, 0 => 1
  | 0, _ + 1 => 2
  | i + 1, j + 1 =>
      let max_score := max (diagCand s1 s2 mtc mis gp i j)
        (max (upCand s1 s2 mtc mis gp i j) (leftCand s1 s2 mtc mis gp i j))
      if max_score = diagCand s1 s2 mtc mis gp i j then 0
      else if max_score = upCand s1 s2 mtc mis gp i j then 1
      else 2

/-- Function `fill_matrix(seq1, seq2, match=5, mismatch=-2, gap=-6)` returns the pair
(score matrix, traceback direction matrix). -/
def fill_matrix (s1 s2 : List Char) (mtc mis gp : Int) :
    (Nat → Nat → Int) × (Nat → Nat → Nat) :=
  (score s1 s2 mtc mis gp, dirM s1 s2 mtc mis gp)

/-- The body of the `while i > 0 or j > 0` loop of `traceback`
(`src/P2.py`, lines 126-156), unrolled backwards: `tbFrom s1 s2 T i j` is the
(already reversed) pair of aligned pieces produced between cell `(i, j)`
and the origin.  `T` is the direction matrix. -/
def tbFrom (s1 s2 : List Char) (T : Nat → Nat → Nat) : Nat → Nat → List Char × List Char
  | 0, 0 => ([], [])
  | 0, j + 1 =>
      let p := tbFrom s1 s2 T 0 j
      (p.1 ++ ['-'], p.2 ++ [s2.getD j 'X'])
  | i + 1, 0 =>
      let p := tbFrom s1 s2 T i 0
      (p.1 ++ [s1.getD i 'X'], p.2 ++ ['-'])
  | i + 1, j + 1 =>
      if T (i + 1) (j + 1) = 0 then
        let p := tbFrom s1 s2 T i j
        (p.1 ++ [s1.getD i 'X'], p.2 ++ [s2.getD j 'X'])
      else if T (i + 1) (j + 1) = 1 then
        let p := tbFrom s1 s2 T i (j + 1)
        (p.1 ++ [s1.getD i 'X'], p.2 ++ ['-'])
      else
        let p := tbFrom s1 s2 T (i + 1) j
        (p.1 ++ ['-'], p.2 ++ [s2.getD j 'X'])
termination_by i j => i + j

/-- The `traceback` function (`src/P2.py`, lines 106-156): start at
`(len(seq1), len(seq2))` and walk back to the origin. -/
def traceback (s1 s2 : List Char) (T : Nat → Nat → Nat) : List Char × List Char :=
  tbFrom s1 s2 T s1.length s2.length

/-- Function `align_sequences_with_DP` (`src/P2.py`, lines 158-175).  The assignment
`score, traceback = fill_matrix(seq1, seq2)` rebinds the local name
`traceback` to the direction matrix, so the following call
`traceback(seq1, seq2, traceback)` invokes a numpy array and raises
`TypeError`; the function can never return normally. -/
def align_sequences_with_DP (seq1 seq2 : List Char) :
    Except String (List Char × List Char) :=
  let _tracebackMat := (fill_matrix seq1 seq2 5 (-2) (-6)).2
  Except.error "TypeError: ndarray object is not callable"

/-- Function `input_check` (`src/P2.py`, lines 3-28) on already-typed input: the
`isinstance` checks hold by typing, and each sequence is cleaned by removing
spaces and uppercasing. -/
def input_check (l : List (String × List Char)) : List (String × List Char) :=
  l.map (fun p => (p.1, (p.2.filter (fun c => c ≠ ' ')).map Char.toUpper))

/-- Function `generate_all_pairs` (`src/P2.py`, lines 30-46): all index pairs
`(i, j)` with `i < j < n`, in lexicographic order. -/
def generate_all_pairs (l : List (String × List Char)) : List (Nat × Nat) :=
  (List.range l.length).flatMap
    (fun i => (List.range' (i + 1) (l.length - (i + 1))).map (fun j => (i, j)))

/-- Function `AlignByDP` (`src/P2.py`, lines 177-202): clean the input, then align
every unique index pair, propagating any exception raised by
`align_sequences_with_DP`. -/
def AlignByDP (l : List (String × List Char)) :
    Except String (List ((Nat × Nat) × (List Char × List Char))) :=
  let sequences := input_check l
  (generate_all_pairs sequences).foldlM
    (fun acc ij => do
      let a ← align_sequences_with_DP (sequences.getD ij.1 default).2
        (sequences.getD ij.2 default).2
      pure (acc ++ [(ij, a)]))
    []

end P2

namespace P3

/-- One dict entry of an alignment map: a key (pair of ids) and a value
(pair of aligned strings). -/
abbrev Entry := (Int × Int) × (List Char × List Char)

/-- An alignment map, as the insertion-ordered list of its dict entries. -/
abbrev AlignMap := List Entry

/-- Constant `VALID_CHARS` (`src/P3.py`, line 6). -/
def VALID_CHARS : List Char := ['A', 'C', 'G', 'T', 'a', 'c', 'g', 't', '-']

/-- Canonical form of a key, `(i, j) if i < j else (j, i)`
(`src/P3.py`, line 42). -/
def orderedKey (k : Int × Int) : Int × Int :=
  if k.1 < k.2 then (k.1, k.2) else (k.2, k.1)

/-- The per-entry validation of the loop body of `validate_alignment_map`
(`src/P3.py`, lines 34-50) on typed input: the `isinstance`/arity checks
hold by typing; what remains is `i != j`, equal positive value lengths and
the alphabet check. -/
def entryOK (e : Entry) : Bool :=
  e.1.1 ≠ e.1.2 &&
  (e.2.1.length = e.2.2.length && 0 < e.2.1.length) &&
  (e.2.1.all (fun c => c ∈ VALID_CHARS) && e.2.2.all (fun c => c ∈ VALID_CHARS))

/-- The `for dict_key, dict_value in alignment_map.items()` loop of
`validate_alignment_map` (`src/P3.py`, lines 34-61), carrying the
`normalised` mapping and the `identifiers` set (a duplicate-free list;
`identifiers.update(ordered_key)` adds both components when absent). -/
def validateLoop : AlignMap → AlignMap → List Int →
    Except String (AlignMap × List Int)
  | [], normalised, identifiers => Except.ok (normalised, identifiers)
  | e :: rest, normalised, identifiers =>
      if entryOK e then
        let ok := orderedKey e.1
        if ok ∈ normalised.map Prod.fst then Except.error "malformed input"
        else validateLoop rest (normalised ++ [(ok, e.2)])
          (List.insert e.1.1 (List.insert e.1.2 identifiers))
      else Except.error "malformed input"

/-- Embedding of `itertools.combinations(ids_sorted, 2)` (`src/P3.py`, line 68): every
pair of an element with a later element of the list. -/
def combinations2 : List Int → List (Int × Int)
  | [] => []
  | x :: xs => xs.map (fun y => (x, y)) ++ combinations2 xs

/-- Function `validate_alignment_map` (`src/P3.py`, lines 16-72): run the entry loop,
then require at least two identifiers and that the canonical key set equals
the full combination set; on success return the sorted ids and the
normalised map. -/
def validate_alignment_map (am : AlignMap) :
    Except String (List Int × AlignMap) :=
  if am = [] then Except.error "malformed input"
  else
    match validateLoop am [] [] with
    | Except.error e => Except.error e
    | Except.ok (normalised, identifiers) =>
        let ids_sorted := identifiers.insertionSort (· ≤ ·)
        if ids_sorted.length < 2 then Except.error "malformed input"
        else if (combinations2 ids_sorted).toFinset
            = (normalised.map Prod.fst).toFinset then
          Except.ok (ids_sorted, normalised)
        else Except.error "malformed input"

/-- One iteration of the counting loop of `compute_dist`
(`src/P3.py`, lines 81-86): skip a column containing `'-'`, otherwise bump
`comparable` and, on differing characters, `mismatches`. -/
def distStep (acc : Nat × Nat) (cb : Char × Char) : Nat × Nat :=
  if cb.1 = '-' ∨ cb.2 = '-' then acc
  else (acc.1 + 1, if cb.1 ≠ cb.2 then acc.2 + 1 else acc.2)

/-- The counting loop of `compute_dist` (`src/P3.py`, lines 78-86):
`(comparable, mismatches)` after walking `zip(aligned_a, aligned_b)`. -/
def distCounts (a b : List Char) : Nat × Nat :=
  (a.zip b).foldl distStep (0, 0)

/-- Function `compute_dist` (`src/P3.py`, lines 75-98), floats read as reals:
0 when no column is comparable, the saturation value 30 when
`p_distance ≥ 0.75`, otherwise `-0.75 * log(1 - (4/3) * p)` guarded by the
defensive `ensure(correction > 0.0)` (whose failure raises). -/
noncomputable def compute_dist (a b : List Char) : Except String ℝ :=
  let c := (distCounts a b).1
  let m := (distCounts a b).2
  if c = 0 then Except.ok 0
  else
    let p : ℝ := (m : ℝ) / (c : ℝ)
    if 0.75 ≤ p then Except.ok 30
    else
      let correction : ℝ := 1 - 4 / 3 * p
      if 0 < correction then Except.ok (-0.75 * Real.log correction)
      else Except.error "malformed input"

/-- Assignment `matrix[r][c] = x` on a list-of-lists matrix. -/
def mset (M : List (List ℝ)) (r c : Nat) (x : ℝ) : List (List ℝ) :=
  M.set r ((M.getD r []).set c x)

/-- Lookup `matrix[r][c]` on a list-of-lists matrix (0 out of range). -/
def mget (M : List (List ℝ)) (r c : Nat) : ℝ :=
  (M.getD r []).getD c 0

/-- The `for (i, j), alignment in normalised.items()` loop of
`ComputeDistMatrix` (`src/P3.py`, lines 120-124): compute the distance of
each pair and write it at both `(pos i, pos j)` and `(pos j, pos i)`. -/
noncomputable def distLoop (ids : List Int) :
    AlignMap → List (List ℝ) → Except String (List (List ℝ))
  | [], M => Except.ok M
  | e :: rest, M => do
      let d ← compute_dist e.2.1 e.2.2
      distLoop ids rest
        (mset (mset M (ids.indexOf e.1.1) (ids.indexOf e.1.2) d)
          (ids.indexOf e.1.2) (ids.indexOf e.1.1) d)

/-- Function `ComputeDistMatrix` (`src/P3.py`, lines 101-126): validate the map,
allocate a `size × size` zero matrix and fill it pair by pair. -/
noncomputable def ComputeDistMatrix (am : AlignMap) :
    Except String (List (List ℝ)) :=
  match validate_alignment_map am with
  | Except.error e => Except.error e
  | Except.ok (ids_sorted, normalised) =>
      let size := ids_sorted.length
      distLoop ids_sorted normalised
        (List.replicate size (List.replicate size 0))

end P3

open P2 P3

/-! Declarative (spec-side) counterparts used to state the claims. -/

/-- A column of an alignment is comparable when neither character is a gap. -/
def comparableCol (cb : Char × Char) : Bool :=
  cb.1 ≠ '-' && cb.2 ≠ '-'

/-- A mismatch column: comparable with differing characters. -/
def mismatchCol (cb : Char × Char) : Bool :=
  comparableCol cb && cb.1 ≠ cb.2

/-- Number of comparable columns of the aligned pair. -/
def comparableCount (a b : List Char) : Nat :=
  ((a.zip b).filter comparableCol).length

/-- Number of comparable columns whose characters differ. -/
def mismatchCount (a b : List Char) : Nat :=
  ((a.zip b).filter mismatchCol).length

/-- Score of one alignment column under the fixed weights: a column holding
a gap scores −6, otherwise +5 on a match and −2 on a mismatch. -/
def colScore (c1 c2 : Char) : Int :=
  if c1 = '-' ∨ c2 = '-' then -6 else P2.sval 5 (-2) c1 c2

/-- Column-by-column re-score of an aligned pair. -/
def rescore (a b : List Char) : Int :=
  (List.zipWith colScore a b).sum

/-- The canonicalised keys of an alignment map, in order. -/
def canonKeys (am : P3.AlignMap) : List (Int × Int) :=
  am.map (fun e => P3.orderedKey e.1)

/-- The alignment map with every key canonicalised, values untouched. -/
def canonEntries (am : P3.AlignMap) : P3.AlignMap :=
  am.map (fun e => (P3.orderedKey e.1, e.2))

/-- The distinct identifiers mentioned in the keys of an alignment map. -/
def idList (am : P3.AlignMap) : List Int :=
  (am.flatMap (fun e => [e.1.1, e.1.2])).dedup

/-- The identifiers of an alignment map, sorted ascending. -/
def sortedIds (am : P3.AlignMap) : List Int :=
  (idList am).insertionSort (· ≤ ·)

/-- Predicate stating that `M` is an `n × n` matrix. -/
def isSquare (M : List (List ℝ)) (n : Nat) : Prop :=
  M.length = n ∧ ∀ r, r < n → (M.getD r []).length = n

/-! Unfolding lemmas for the well-founded recursions. -/

theorem score_left_edge (s1 s2 : List Char) (mtc mis gp : Int) (i : Nat) :
    score s1 s2 mtc mis gp i 0 = (i : Int) * gp := by
  cases i <;> simp [score]

theorem score_top_edge (s1 s2 : List Char) (mtc mis gp : Int) (j : Nat) :
    score s1 s2 mtc mis gp 0 j = (j : Int) * gp := by
  cases j <;> simp [score]

theorem score_inner (s1 s2 : List Char) (mtc mis gp : Int) (i j : Nat) :
    score s1 s2 mtc mis gp (i + 1) (j + 1)
      = max (diagCand s1 s2 mtc mis gp i j)
          (max (upCand s1 s2 mtc mis gp i j) (leftCand s1 s2 mtc mis gp i j)) := by
  rw [score]
  rfl

theorem dirM_inner (s1 s2 : List Char) (mtc mis gp : Int) (i j : Nat) :
    dirM s1 s2 mtc mis gp (i + 1) (j + 1)
      = if max (diagCand s1 s2 mtc mis gp i j)
            (max (upCand s1 s2 mtc mis gp i j) (leftCand s1 s2 mtc mis gp i j))
          = diagCand s1 s2 mtc mis gp i j then 0
        else if max (diagCand s1 s2 mtc mis gp i j)
            (max (upCand s1 s2 mtc mis gp i j) (leftCand s1 s2 mtc mis gp i j))
          = upCand s1 s2 mtc mis gp i j then 1
        else 2 := rfl

/-- Claim C1: the spec says `align(A,B)` returns two equal-length strings
that strip back to `A` and `B`; the code instead raises on every call,
because the local name `traceback` is rebound to the direction matrix and
then invoked.  This theorem evaluates the code at the failing input
`A = "A"`, `B = "C"`. -/
theorem claim_C1_align_raises :
    align_sequences_with_DP ['A'] ['C']
      = Except.error "TypeError: ndarray object is not callable" := rfl

/-- Claim C9: `validate_alignment_map` imposes no non-negativity condition
on identifiers: the complete one-pair map over `S = {-1, 0}` is accepted
and the sorted ids `[-1, 0]` are returned. -/
theorem claim_C9_negative_ids :
    validate_alignment_map [((-1, 0), (['A'], ['A']))]
      = Except.ok ([-1, 0], [((-1, 0), (['A'], ['A']))]) := rfl

/-- Claim C6: at every inner cell `(i+1, j+1)` the direction matrix stores
0 exactly when the diagonal candidate attains the maximum, 1 exactly when
the up candidate attains it and the diagonal one does not, and 2 exactly
when neither the diagonal nor the up candidate attains it (in which case
the left candidate alone does). -/
theorem claim_C6_tiebreak (s1 s2 : List Char) (mtc mis gp : Int) (i j : Nat) :
    (dirM s1 s2 mtc mis gp (i + 1) (j + 1) = 0 ↔
      max (diagCand s1 s2 mtc mis gp i j)
          (max (upCand s1 s2 mtc mis gp i j) (leftCand s1 s2 mtc mis gp i j))
        = diagCand s1 s2 mtc mis gp i j) ∧
    (dirM s1 s2 mtc mis gp (i + 1) (j + 1) = 1 ↔
      ¬ max (diagCand s1 s2 mtc mis gp i j)
          (max (upCand s1 s2 mtc mis gp i j) (leftCand s1 s2 mtc mis gp i j))
        = diagCand s1 s2 mtc mis gp i j ∧
      max (diagCand s1 s2 mtc mis gp i j)
          (max (upCand s1 s2 mtc mis gp i j) (leftCand s1 s2 mtc mis gp i j))
        = upCand s1 s2 mtc mis gp i j) ∧
    (dirM s1 s2 mtc mis gp (i + 1) (j + 1) = 2 ↔
      ¬ max (diagCand s1 s2 mtc mis gp i j)
          (max (upCand s1 s2 mtc mis gp i j) (leftCand s1 s2 mtc mis gp i j))
        = diagCand s1 s2 mtc mis gp i j ∧
      ¬ max (diagCand s1 s2 mtc mis gp i j)
          (max (upCand s1 s2 mtc mis gp i j) (leftCand s1 s2 mtc mis gp i j))
        = upCand s1 s2 mtc mis gp i j ∧
      max (diagCand s1 s2 mtc mis gp i j)
          (max (upCand s1 s2 mtc mis gp i j) (leftCand s1 s2 mtc mis gp i j))
        = leftCand s1 s2 mtc mis gp i j) := by
  rw [dirM_inner]
  by_cases h0 : max (diagCand s1 s2 mtc mis gp i j)
      (max (upCand s1 s2 mtc mis gp i j) (leftCand s1 s2 mtc mis gp i j))
    = diagCand s1 s2 mtc mis gp i j
  · simp [h0]
  · by_cases h1 : max (diagCand s1 s2 mtc mis gp i j)
        (max (upCand s1 s2 mtc mis gp i j) (leftCand s1 s2 mtc mis gp i j))
      = upCand s1 s2 mtc mis gp i j
    · have hud : ¬ upCand s1 s2 mtc mis gp i j = diagCand s1 s2 mtc mis gp i j :=
        fun h => h0 (h1.trans h)
      simp [h0, h1, hud]
    · have h2 : max (diagCand s1 s2 mtc mis gp i j)
          (max (upCand s1 s2 mtc mis gp i j) (leftCand s1 s2 mtc mis gp i j))
        = leftCand s1 s2 mtc mis gp i j := by
        rcases max_choice (diagCand s1 s2 mtc mis gp i j)
            (max (upCand s1 s2 mtc mis gp i j) (leftCand s1 s2 mtc mis gp i j)) with h | h
        · exact absurd h h0
        · rcases max_choice (upCand s1 s2 mtc mis gp i j)
              (leftCand s1 s2 mtc mis gp i j) with h' | h'
          · exact absurd (h.trans h') h1
          · exact h.trans h'
      have hld : ¬ leftCand s1 s2 mtc mis gp i j = diagCand s1 s2 mtc mis gp i j :=
        fun h => h0 (h2.trans h)
      have hlu : ¬ leftCand s1 s2 mtc mis gp i j = upCand s1 s2 mtc mis gp i j :=
        fun h => h1 (h2.trans h)
      simp [h0, h1, h2, hld, hlu]

/-! The distance estimator: claims C3, C7, C10. -/

theorem foldl_distStep (l : List (Char × Char)) (c m : Nat) :
    l.foldl distStep (c, m)
      = (c + (l.filter comparableCol).length, m + (l.filter mismatchCol).length) := by
  induction l generalizing c m with
  | nil => simp
  | cons cb l ih =>
      by_cases hgap : cb.1 = '-' ∨ cb.2 = '-'
      · have h1 : comparableCol cb = false := by
          simp only [comparableCol, Bool.and_eq_false_iff]
          rcases hgap with h | h
          · exact Or.inl (by simp [h])
          · exact Or.inr (by simp [h])
        have h2 : mismatchCol cb = false := by
          simp [mismatchCol, h1]
        simp [List.foldl_cons, distStep, hgap, h1, h2, ih]
      · push_neg at hgap
        have h1 : comparableCol cb = true := by
          simp [comparableCol, hgap.1, hgap.2]
        by_cases hne : cb.1 = cb.2
        · have h2 : mismatchCol cb = false := by simp [mismatchCol, hne]
          simp [List.foldl_cons, distStep, hgap.1, hgap.2, hne, h1, h2, ih]
          omega
        · have h2 : mismatchCol cb = true := by simp [mismatchCol, h1, hne]
          simp [List.foldl_cons, distStep, hgap.1, hgap.2, hne, h1, h2, ih]
          omega

theorem distCounts_eq (a b : List Char) :
    distCounts a b = (comparableCount a b, mismatchCount a b) := by
  simpa [distCounts, comparableCount, mismatchCount] using
    foldl_distStep (a.zip b) 0 0

theorem compute_dist_isOk (a b : List Char) :
    ∃ r : ℝ, compute_dist a b = Except.ok r := by
  simp only [compute_dist]
  by_cases hc : (distCounts a b).1 = 0
  · exact ⟨0, by simp [hc]⟩
  · by_cases hp : (0.75 : ℝ) ≤ ((distCounts a b).2 : ℝ) / ((distCounts a b).1 : ℝ)
    · exact ⟨30, by simp [hc, hp]⟩
    · have hlt : ((distCounts a b).2 : ℝ) / ((distCounts a b).1 : ℝ) < 0.75 :=
        not_le.mp hp
      have hpos : (0 : ℝ)
          < 1 - 4 / 3 * (((distCounts a b).2 : ℝ) / ((distCounts a b).1 : ℝ)) := by
        nlinarith
      exact ⟨-0.75 * Real.log
          (1 - 4 / 3 * (((distCounts a b).2 : ℝ) / ((distCounts a b).1 : ℝ))),
        by simp [hc, hp, hpos]⟩

/-- Claim C7: the defensive `ensure(correction > 0.0)` in `compute_dist` can
never fail: whenever the input reaches the check (some comparable column and
`p < 0.75`), the correction is strictly positive and the function returns
the Jukes-Cantor value, never the error branch. -/
theorem claim_C7_defensive_check (a b : List Char)
    (hc : (distCounts a b).1 ≠ 0)
    (hp : ¬ (0.75 : ℝ) ≤ ((distCounts a b).2 : ℝ) / ((distCounts a b).1 : ℝ)) :
    0 < 1 - 4 / 3 * (((distCounts a b).2 : ℝ) / ((distCounts a b).1 : ℝ)) ∧
      compute_dist a b
        = Except.ok (-0.75 * Real.log
            (1 - 4 / 3 * (((distCounts a b).2 : ℝ) / ((distCounts a b).1 : ℝ)))) := by
  have hlt : ((distCounts a b).2 : ℝ) / ((distCounts a b).1 : ℝ) < 0.75 :=
    not_le.mp hp
  have hpos : (0 : ℝ)
      < 1 - 4 / 3 * (((distCounts a b).2 : ℝ) / ((distCounts a b).1 : ℝ)) := by
    nlinarith
  exact ⟨hpos, by simp [compute_dist, hc, hp, hpos]⟩

/-- Witness for claim C7 at the aligned pair `("AT", "AA")`, which has
`comparable = 2`, `mismatches = 1`, `p = 1/2 < 0.75`. -/
theorem claim_C7_witness :
    0 < 1 - 4 / 3 * (((distCounts ['A', 'T'] ['A', 'A']).2 : ℝ)
        / ((distCounts ['A', 'T'] ['A', 'A']).1 : ℝ)) ∧
      compute_dist ['A', 'T'] ['A', 'A']
        = Except.ok (-0.75 * Real.log
            (1 - 4 / 3 * (((distCounts ['A', 'T'] ['A', 'A']).2 : ℝ)
              / ((distCounts ['A', 'T'] ['A', 'A']).1 : ℝ)))) :=
  claim_C7_defensive_check ['A', 'T'] ['A', 'A'] (by decide)
    (by rw [show distCounts ['A', 'T'] ['A', 'A'] = (2, 1) from rfl]; norm_num)

/-- Claim C3: `compute_dist` returns 0 when no column is comparable, exactly
30 when `p = mismatches/comparable ≥ 0.75`, and otherwise
`-0.75 * ln (1 - (4/3) p)`, where `comparable` and `mismatches` count the
gap-free columns and the differing gap-free columns respectively. -/
theorem claim_C3_compute_dist (a b : List Char) :
    (comparableCount a b = 0 → compute_dist a b = Except.ok 0) ∧
    (comparableCount a b ≠ 0 →
      (0.75 : ℝ) ≤ (mismatchCount a b : ℝ) / (comparableCount a b : ℝ) →
      compute_dist a b = Except.ok 30) ∧
    (comparableCount a b ≠ 0 →
      ¬ (0.75 : ℝ) ≤ (mismatchCount a b : ℝ) / (comparableCount a b : ℝ) →
      compute_dist a b
        = Except.ok (-0.75 * Real.log
            (1 - 4 / 3 * ((mismatchCount a b : ℝ) / (comparableCount a b : ℝ))))) := by
  refine ⟨fun hc => ?_, fun hc hp => ?_, fun hc hp => ?_⟩
  · simp [compute_dist, distCounts_eq, hc]
  · simp [compute_dist, distCounts_eq, hc, hp]
  · have hlt : (mismatchCount a b : ℝ) / (comparableCount a b : ℝ) < 0.75 :=
      not_le.mp hp
    have hpos : (0 : ℝ)
        < 1 - 4 / 3 * ((mismatchCount a b : ℝ) / (comparableCount a b : ℝ)) := by
      nlinarith
    simp [compute_dist, distCounts_eq, hc, hp, hpos]

/-- Witness for claim C3: all three branches at concrete aligned pairs
(`("-","A")` has no comparable column; `("A","T")` has `p = 1 ≥ 0.75`;
`("AT","AA")` has `p = 1/2 < 0.75`). -/
theorem claim_C3_witness :
    compute_dist ['-'] ['A'] = Except.ok 0 ∧
    compute_dist ['A'] ['T'] = Except.ok 30 ∧
    compute_dist ['A', 'T'] ['A', 'A']
      = Except.ok (-0.75 * Real.log
          (1 - 4 / 3 * ((mismatchCount ['A', 'T'] ['A', 'A'] : ℝ)
            / (comparableCount ['A', 'T'] ['A', 'A'] : ℝ)))) :=
  ⟨(claim_C3_compute_dist ['-'] ['A']).1 (by decide),
   (claim_C3_compute_dist ['A'] ['T']).2.1 (by decide)
     (by rw [show mismatchCount ['A'] ['T'] = 1 from rfl,
           show comparableCount ['A'] ['T'] = 1 from rfl]; norm_num),
   (claim_C3_compute_dist ['A', 'T'] ['A', 'A']).2.2 (by decide)
     (by rw [show mismatchCount ['A', 'T'] ['A', 'A'] = 1 from rfl,
           show comparableCount ['A', 'T'] ['A', 'A'] = 2 from rfl]; norm_num)⟩

/-- Claim C10: `compute_dist` has no equal-length precondition and never
raises: it only reads the lock-step prefix, so it agrees with itself applied
to the common-length prefixes of its arguments. -/
theorem claim_C10_lockstep (a b : List Char) :
    compute_dist a b
      = compute_dist (a.take (min a.length b.length))
          (b.take (min a.length b.length)) ∧
    ∃ r : ℝ, compute_dist a b = Except.ok r := by
  constructor
  · have hz : (a.take (min a.length b.length)).zip (b.take (min a.length b.length))
        = a.zip b := by
      have h1 : List.take (min a.length b.length) (a.zip b)
          = (a.take (min a.length b.length)).zip (b.take (min a.length b.length)) := by
        simp [List.zip_eq_zipWith, List.take_zipWith]
      have h2 : List.take (min a.length b.length) (a.zip b) = a.zip b :=
        List.take_of_length_le (by simp)
      rw [← h1, h2]
    have hcounts : distCounts (a.take (min a.length b.length))
        (b.take (min a.length b.length)) = distCounts a b := by
      simp [distCounts, hz]
    simp [compute_dist, hcounts]
  · exact compute_dist_isOk a b

/-! The shadowing bug: claim C8. -/

theorem generate_all_pairs_ne_nil (x y : String × List Char)
    (l : List (String × List Char)) : generate_all_pairs (x :: y :: l) ≠ [] := by
  intro h
  rw [generate_all_pairs, List.flatMap_eq_nil_iff] at h
  have h0 : (0 : Nat) ∈ List.range (x :: y :: l).length := by
    simp
  have := h 0 h0
  rw [List.map_eq_nil_iff] at this
  have hlen := congrArg List.length this
  simp [List.length_range'] at hlen

theorem foldlM_align_error (pairs : List (Nat × Nat))
    (seqs : List (String × List Char))
    (acc : List ((Nat × Nat) × (List Char × List Char)))
    (hne : pairs ≠ []) :
    (pairs.foldlM
      (fun acc ij => do
        let a ← align_sequences_with_DP (seqs.getD ij.1 default).2
          (seqs.getD ij.2 default).2
        pure (acc ++ [(ij, a)]))
      acc)
      = (Except.error "TypeError: ndarray object is not callable" :
          Except String (List ((Nat × Nat) × (List Char × List Char)))) := by
  cases pairs with
  | nil => exact absurd rfl hne
  | cons p ps => rfl

/-- Claim C8: `align_sequences_with_DP` raises on every input (the local
name `traceback` shadows the traceback function with the direction matrix,
which is then invoked); consequently `AlignByDP` returns the empty map for
lists of fewer than two sequences and raises for every list with at least
two. -/
theorem claim_C8_always_raises :
    (∀ s1 s2 : List Char, ∃ msg, align_sequences_with_DP s1 s2 = Except.error msg) ∧
    (∀ l : List (String × List Char),
      (l.length < 2 → AlignByDP l = Except.ok []) ∧
      (2 ≤ l.length → ∃ msg, AlignByDP l = Except.error msg)) := by
  constructor
  · exact fun s1 s2 => ⟨_, rfl⟩
  · intro l
    constructor
    · intro h
      match l with
      | [] => rfl
      | [x] => rfl
      | x :: y :: r => exact absurd h (by simp only [List.length_cons]; omega)
    · intro h
      match l with
      | [] => simp at h
      | [x] => simp at h
      | x :: y :: r =>
          refine ⟨"TypeError: ndarray object is not callable", ?_⟩
          show (generate_all_pairs (input_check (x :: y :: r))).foldlM _ [] = _
          have hne : generate_all_pairs (input_check (x :: y :: r)) ≠ [] := by
            simp only [input_check, List.map_cons]
            exact generate_all_pairs_ne_nil _ _ _
          exact foldlM_align_error _ _ _ hne

/-- Witness for claim C8: the singleton and the two-element list. -/
theorem claim_C8_witness :
    AlignByDP [("a", ['A'])] = Except.ok [] ∧
    ∃ msg, AlignByDP [("a", ['A']), ("b", ['C'])] = Except.error msg :=
  ⟨(claim_C8_always_raises.2 [("a", ['A'])]).1 (by decide),
   (claim_C8_always_raises.2 [("a", ['A']), ("b", ['C'])]).2 (by decide)⟩

/-! Traceback re-scoring: claim C2. -/

theorem tbFrom_top (s1 s2 : List Char) (T : Nat → Nat → Nat) (j : Nat) :
    tbFrom s1 s2 T 0 (j + 1)
      = ((tbFrom s1 s2 T 0 j).1 ++ ['-'],
         (tbFrom s1 s2 T 0 j).2 ++ [s2.getD j 'X']) := by
  rw [tbFrom]

theorem tbFrom_left (s1 s2 : List Char) (T : Nat → Nat → Nat) (i : Nat) :
    tbFrom s1 s2 T (i + 1) 0
      = ((tbFrom s1 s2 T i 0).1 ++ [s1.getD i 'X'],
         (tbFrom s1 s2 T i 0).2 ++ ['-']) := by
  rw [tbFrom]

theorem tbFrom_inner (s1 s2 : List Char) (T : Nat → Nat → Nat) (i j : Nat) :
    tbFrom s1 s2 T (i + 1) (j + 1)
      = if T (i + 1) (j + 1) = 0 then
          ((tbFrom s1 s2 T i j).1 ++ [s1.getD i 'X'],
           (tbFrom s1 s2 T i j).2 ++ [s2.getD j 'X'])
        else if T (i + 1) (j + 1) = 1 then
          ((tbFrom s1 s2 T i (j + 1)).1 ++ [s1.getD i 'X'],
           (tbFrom s1 s2 T i (j + 1)).2 ++ ['-'])
        else
          ((tbFrom s1 s2 T (i + 1) j).1 ++ ['-'],
           (tbFrom s1 s2 T (i + 1) j).2 ++ [s2.getD j 'X']) := by
  rw [tbFrom]

theorem tbFrom_length (s1 s2 : List Char) (T : Nat → Nat → Nat) :
    ∀ n i j, i + j = n →
      (tbFrom s1 s2 T i j).1.length = (tbFrom s1 s2 T i j).2.length := by
  intro n
  induction n using Nat.strong_induction_on with
  | _ n ih =>
      intro i j hij
      match i, j with
      | 0, 0 => simp [tbFrom]
      | 0, j + 1 =>
          rw [tbFrom_top]
          simpa using ih j (by omega) 0 j (by omega)
      | i + 1, 0 =>
          rw [tbFrom_left]
          simpa using ih i (by omega) i 0 (by omega)
      | i + 1, j + 1 =>
          rw [tbFrom_inner]
          by_cases h0 : T (i + 1) (j + 1) = 0
          · simpa [h0] using ih (i + j) (by omega) i j rfl
          · by_cases h1 : T (i + 1) (j + 1) = 1
            · simpa [h0, h1] using ih (i + j + 1) (by omega) i (j + 1) rfl
            · simpa [h0, h1] using ih (i + j + 1) (by omega) (i + 1) j (by omega)

theorem rescore_append (a b : List Char) (c d : Char)
    (h : a.length = b.length) :
    rescore (a ++ [c]) (b ++ [d]) = rescore a b + colScore c d := by
  rw [rescore, List.zipWith_append _ _ _ _ _ h, List.sum_append]
  simp [rescore]

theorem getD_ne_gap (s : List Char) (i : Nat) (h : '-' ∉ s) :
    s.getD i 'X' ≠ '-' := by
  rw [List.getD_eq_getElem?_getD]
  by_cases hi : i < s.length
  · rw [List.getElem?_eq_getElem hi]
    intro hc
    exact h (hc ▸ List.getElem_mem hi)
  · rw [List.getElem?_eq_none (by omega)]
    simp

theorem colScore_gap_right (c : Char) : colScore c '-' = -6 := by
  simp [colScore]

theorem colScore_gap_left (c : Char) : colScore '-' c = -6 := by
  simp [colScore]

theorem colScore_of_ne (c d : Char) (hc : c ≠ '-') (hd : d ≠ '-') :
    colScore c d = sval 5 (-2) c d := by
  simp [colScore, hc, hd]

theorem score_dir0 (s1 s2 : List Char) (mtc mis gp : Int) (i j : Nat)
    (h : dirM s1 s2 mtc mis gp (i + 1) (j + 1) = 0) :
    score s1 s2 mtc mis gp (i + 1) (j + 1) = diagCand s1 s2 mtc mis gp i j := by
  rw [score_inner]
  rw [dirM_inner] at h
  by_cases hd : max (diagCand s1 s2 mtc mis gp i j)
      (max (upCand s1 s2 mtc mis gp i j) (leftCand s1 s2 mtc mis gp i j))
    = diagCand s1 s2 mtc mis gp i j
  · exact hd
  · rw [if_neg hd] at h
    by_cases hu : max (diagCand s1 s2 mtc mis gp i j)
        (max (upCand s1 s2 mtc mis gp i j) (leftCand s1 s2 mtc mis gp i j))
      = upCand s1 s2 mtc mis gp i j
    · rw [if_pos hu] at h
      exact absurd h (by omega)
    · rw [if_neg hu] at h
      exact absurd h (by omega)

theorem score_dir1 (s1 s2 : List Char) (mtc mis gp : Int) (i j : Nat)
    (h : dirM s1 s2 mtc mis gp (i + 1) (j + 1) = 1) :
    score s1 s2 mtc mis gp (i + 1) (j + 1) = upCand s1 s2 mtc mis gp i j := by
  rw [score_inner]
  rw [dirM_inner] at h
  by_cases hd : max (diagCand s1 s2 mtc mis gp i j)
      (max (upCand s1 s2 mtc mis gp i j) (leftCand s1 s2 mtc mis gp i j))
    = diagCand s1 s2 mtc mis gp i j
  · rw [if_pos hd] at h
    exact absurd h (by omega)
  · rw [if_neg hd] at h
    by_cases hu : max (diagCand s1 s2 mtc mis gp i j)
        (max (upCand s1 s2 mtc mis gp i j) (leftCand s1 s2 mtc mis gp i j))
      = upCand s1 s2 mtc mis gp i j
    · exact hu
    · rw [if_neg hu] at h
      exact absurd h (by omega)

theorem score_dir_else (s1 s2 : List Char) (mtc mis gp : Int) (i j : Nat)
    (h0 : ¬ dirM s1 s2 mtc mis gp (i + 1) (j + 1) = 0)
    (h1 : ¬ dirM s1 s2 mtc mis gp (i + 1) (j + 1) = 1) :
    score s1 s2 mtc mis gp (i + 1) (j + 1) = leftCand s1 s2 mtc mis gp i j := by
  rw [score_inner]
  rw [dirM_inner] at h0 h1
  by_cases hd : max (diagCand s1 s2 mtc mis gp i j)
      (max (upCand s1 s2 mtc mis gp i j) (leftCand s1 s2 mtc mis gp i j))
    = diagCand s1 s2 mtc mis gp i j
  · rw [if_pos hd] at h0
    exact absurd rfl h0
  · rw [if_neg hd] at h1
    by_cases hu : max (diagCand s1 s2 mtc mis gp i j)
        (max (upCand s1 s2 mtc mis gp i j) (leftCand s1 s2 mtc mis gp i j))
      = upCand s1 s2 mtc mis gp i j
    · rw [if_pos hu] at h1
      exact absurd rfl h1
    · rcases max_choice (diagCand s1 s2 mtc mis gp i j)
          (max (upCand s1 s2 mtc mis gp i j) (leftCand s1 s2 mtc mis gp i j)) with h | h
      · exact absurd h hd
      · rcases max_choice (upCand s1 s2 mtc mis gp i j)
            (leftCand s1 s2 mtc mis gp i j) with h' | h'
        · exact absurd (h.trans h') hu
        · exact h.trans h'

theorem rescore_tbFrom (s1 s2 : List Char) (h1 : '-' ∉ s1) (h2 : '-' ∉ s2) :
    ∀ n i j, i + j = n →
      rescore (tbFrom s1 s2 (dirM s1 s2 5 (-2) (-6)) i j).1
              (tbFrom s1 s2 (dirM s1 s2 5 (-2) (-6)) i j).2
        = score s1 s2 5 (-2) (-6) i j := by
  intro n
  induction n using Nat.strong_induction_on with
  | _ n ih =>
      intro i j hij
      match i, j with
      | 0, 0 => simp [tbFrom, rescore, score]
      | 0, j + 1 =>
          rw [tbFrom_top,
            rescore_append _ _ _ _ (tbFrom_length s1 s2 _ j 0 j (by omega)),
            ih j (by omega) 0 j (by omega), colScore_gap_left,
            score_top_edge, score_top_edge]
          push_cast
          ring
      | i + 1, 0 =>
          rw [tbFrom_left,
            rescore_append _ _ _ _ (tbFrom_length s1 s2 _ i i 0 (by omega)),
            ih i (by omega) i 0 (by omega), colScore_gap_right,
            score_left_edge, score_left_edge]
          push_cast
          ring
      | i + 1, j + 1 =>
          by_cases h0 : dirM s1 s2 5 (-2) (-6) (i + 1) (j + 1) = 0
          · rw [tbFrom_inner, if_pos h0,
              rescore_append _ _ _ _ (tbFrom_length s1 s2 _ (i + j) i j rfl),
              ih (i + j) (by omega) i j rfl,
              colScore_of_ne _ _ (getD_ne_gap s1 i h1) (getD_ne_gap s2 j h2),
              score_dir0 s1 s2 5 (-2) (-6) i j h0]
            rfl
          · by_cases hu : dirM s1 s2 5 (-2) (-6) (i + 1) (j + 1) = 1
            · rw [tbFrom_inner, if_neg h0, if_pos hu,
                rescore_append _ _ _ _
                  (tbFrom_length s1 s2 _ (i + (j + 1)) i (j + 1) rfl),
                ih (i + (j + 1)) (by omega) i (j + 1) (by omega),
                colScore_gap_right,
                score_dir1 s1 s2 5 (-2) (-6) i j hu]
              rfl
            · rw [tbFrom_inner, if_neg h0, if_neg hu,
                rescore_append _ _ _ _
                  (tbFrom_length s1 s2 _ (i + 1 + j) (i + 1) j rfl),
                ih (i + 1 + j) (by omega) (i + 1) j (by omega),
                colScore_gap_left,
                score_dir_else s1 s2 5 (-2) (-6) i j h0 hu]
              rfl

/-- Claim C2 is false as stated (for arbitrary non-empty strings): with
`seq1 = seq2 = "-"` the DP treats `'-'` as an ordinary matching character
(final cell 5), but the column re-score counts the diagonal column
`('-','-')` as a gap (−6). -/
theorem claim_C2_counterexample :
    ¬ rescore (traceback ['-'] ['-'] (fill_matrix ['-'] ['-'] 5 (-2) (-6)).2).1
        (traceback ['-'] ['-'] (fill_matrix ['-'] ['-'] 5 (-2) (-6)).2).2
      = (fill_matrix ['-'] ['-'] 5 (-2) (-6)).1
          (['-'] : List Char).length (['-'] : List Char).length := by
  have ht : traceback ['-'] ['-'] (fill_matrix ['-'] ['-'] 5 (-2) (-6)).2
      = (['-'], ['-']) := by
    simp [traceback, fill_matrix, tbFrom, dirM, score, sval, diagCand, upCand,
      leftCand]
  have hs : (fill_matrix ['-'] ['-'] 5 (-2) (-6)).1
      (['-'] : List Char).length (['-'] : List Char).length = 5 := by
    simp [fill_matrix, score, sval, diagCand, upCand, leftCand]
  rw [ht, hs]
  simp [rescore, colScore]

/-- Claim C2 (amended): for every pair of non-empty strings in which `'-'`
does not occur, the alignment reconstructed by `traceback` from the
direction matrix of `fill_matrix`, re-scored column by column with
match = +5, mismatch = −2, gap = −6, sums exactly to the final DP cell
`score[m][n]`.  (Proved with no non-emptiness assumption.) -/
theorem claim_C2_rescore (s1 s2 : List Char) (h1 : '-' ∉ s1) (h2 : '-' ∉ s2) :
    rescore (traceback s1 s2 (fill_matrix s1 s2 5 (-2) (-6)).2).1
        (traceback s1 s2 (fill_matrix s1 s2 5 (-2) (-6)).2).2
      = (fill_matrix s1 s2 5 (-2) (-6)).1 s1.length s2.length :=
  rescore_tbFrom s1 s2 h1 h2 (s1.length + s2.length) s1.length s2.length rfl

/-- Witness for the amended claim C2 at `seq1 = "ACG"`, `seq2 = "AT"`. -/
theorem claim_C2_witness :
    rescore (traceback ['A', 'C', 'G'] ['A', 'T']
          (fill_matrix ['A', 'C', 'G'] ['A', 'T'] 5 (-2) (-6)).2).1
        (traceback ['A', 'C', 'G'] ['A', 'T']
          (fill_matrix ['A', 'C', 'G'] ['A', 'T'] 5 (-2) (-6)).2).2
      = (fill_matrix ['A', 'C', 'G'] ['A', 'T'] 5 (-2) (-6)).1
          (['A', 'C', 'G'] : List Char).length (['A', 'T'] : List Char).length :=
  claim_C2_rescore ['A', 'C', 'G'] ['A', 'T'] (by decide) (by decide)

/-! The validator: claims C4 and C5. -/

theorem mem_idList_cons (e : P3.Entry) (rest : P3.AlignMap) (x : Int) :
    x ∈ idList (e :: rest) ↔ x = e.1.1 ∨ x = e.1.2 ∨ x ∈ idList rest := by
  simp only [idList, List.mem_dedup, List.flatMap_cons, List.mem_append,
    List.mem_cons, List.not_mem_nil, or_false, or_assoc]

theorem validateLoop_error_of_dup :
    ∀ (pre norm : P3.AlignMap) (ids : List Int) (e : P3.Entry) (rest : P3.AlignMap),
      (∀ x ∈ pre, entryOK x = true) → entryOK e = true →
      orderedKey e.1 ∈ norm.map Prod.fst ++ canonKeys pre →
      ∃ msg, validateLoop (pre ++ e :: rest) norm ids = Except.error msg := by
  intro pre
  induction pre with
  | nil =>
      intro norm ids e rest _ he hmem
      simp only [canonKeys, List.map_nil, List.append_nil] at hmem
      exact ⟨"malformed input", by simp [validateLoop, he, hmem]⟩
  | cons p pre ih =>
      intro norm ids e rest hpre he hmem
      have hp : entryOK p = true := hpre p (List.mem_cons_self p pre)
      by_cases hdup : orderedKey p.1 ∈ norm.map Prod.fst
      · exact ⟨"malformed input", by simp [validateLoop, hp, hdup]⟩
      · have hck : canonKeys (p :: pre) = orderedKey p.1 :: canonKeys pre := by
          simp [canonKeys]
        rw [hck] at hmem
        have hmem' : orderedKey e.1
            ∈ (norm ++ [(orderedKey p.1, p.2)]).map Prod.fst ++ canonKeys pre := by
          rw [List.map_append, List.append_assoc]
          simpa using hmem
        obtain ⟨msg, hm⟩ := ih (norm ++ [(orderedKey p.1, p.2)])
          (List.insert p.1.1 (List.insert p.1.2 ids)) e rest
          (fun x hx => hpre x (List.mem_cons_of_mem p hx)) he hmem'
        exact ⟨msg, by simpa [validateLoop, hp, hdup] using hm⟩

theorem validateLoop_ok_run :
    ∀ (am norm : P3.AlignMap) (ids : List Int),
      (∀ e ∈ am, entryOK e = true) →
      (∀ e ∈ am, orderedKey e.1 ∉ norm.map Prod.fst) →
      (canonKeys am).Nodup →
      ∃ ids', validateLoop am norm ids = Except.ok (norm ++ canonEntries am, ids')
        ∧ (∀ x, x ∈ ids' ↔ x ∈ ids ∨ x ∈ idList am)
        ∧ (ids.Nodup → ids'.Nodup) := by
  intro am
  induction am with
  | nil =>
      intro norm ids _ _ _
      exact ⟨ids, by simp [validateLoop, canonEntries],
        fun x => by simp [idList], id⟩
  | cons e rest ih =>
      intro norm ids hOK hnin hnd
      have he : entryOK e = true := hOK e (List.mem_cons_self e rest)
      have hnin_e : orderedKey e.1 ∉ norm.map Prod.fst :=
        hnin e (List.mem_cons_self e rest)
      have hnd' : orderedKey e.1 ∉ canonKeys rest ∧ (canonKeys rest).Nodup := by
        simpa [canonKeys, List.nodup_cons] using hnd
      obtain ⟨ids', hrun, hmem, hndf⟩ :=
        ih (norm ++ [(orderedKey e.1, e.2)])
          (List.insert e.1.1 (List.insert e.1.2 ids))
          (fun x hx => hOK x (List.mem_cons_of_mem e hx))
          (fun x hx => by
            rw [List.map_append, List.mem_append]
            push_neg
            refine ⟨hnin x (List.mem_cons_of_mem e hx), ?_⟩
            simp only [List.map_cons, List.map_nil, List.mem_cons,
              List.not_mem_nil, or_false]
            intro hc
            exact hnd'.1 (hc ▸ List.mem_map_of_mem (fun y => orderedKey y.1) hx))
          hnd'.2
      refine ⟨ids', ?_, ?_,
        fun h => hndf (List.Nodup.insert (List.Nodup.insert h))⟩
      · have hstep : validateLoop (e :: rest) norm ids
            = validateLoop rest (norm ++ [(orderedKey e.1, e.2)])
                (List.insert e.1.1 (List.insert e.1.2 ids)) := by
          simp [validateLoop, he, hnin_e]
        rw [hstep, hrun]
        simp [canonEntries]
      · intro x
        rw [hmem x, mem_idList_cons]
        simp only [List.mem_insert_iff]
        tauto

theorem mem_idList (am : P3.AlignMap) (x : Int) :
    x ∈ idList am ↔ ∃ e ∈ am, x = e.1.1 ∨ x = e.1.2 := by
  simp only [idList, List.mem_dedup, List.mem_flatMap, List.mem_cons,
    List.not_mem_nil, or_false]

theorem canonEntries_map_fst (am : P3.AlignMap) :
    (canonEntries am).map Prod.fst = canonKeys am := by
  simp [canonEntries, canonKeys]

theorem validate_accepts (am : P3.AlignMap) (h1 : am ≠ [])
    (h2 : ∀ e ∈ am, entryOK e = true) (h3 : (canonKeys am).Nodup)
    (h4 : (canonKeys am).toFinset = (combinations2 (sortedIds am)).toFinset) :
    validate_alignment_map am = Except.ok (sortedIds am, canonEntries am) := by
  obtain ⟨ids', hrun, hmem, hnd⟩ := validateLoop_ok_run am [] [] h2 (by simp) h3
  rw [List.nil_append] at hrun
  have hnd' : ids'.Nodup := hnd List.nodup_nil
  have hmem' : ∀ x, x ∈ ids' ↔ x ∈ idList am := by
    intro x
    rw [hmem x]
    simp
  have hperm : ids'.Perm (idList am) :=
    (List.perm_ext_iff_of_nodup hnd' (List.nodup_dedup _)).2 hmem'
  have hsort : ids'.insertionSort (· ≤ ·) = sortedIds am :=
    List.eq_of_perm_of_sorted
      ((List.perm_insertionSort _ ids').trans
        (hperm.trans (List.perm_insertionSort _ (idList am)).symm))
      (List.sorted_insertionSort _ _) (List.sorted_insertionSort _ _)
  obtain ⟨e, he⟩ : ∃ e, e ∈ am := by
    cases am with
    | nil => exact absurd rfl h1
    | cons a l => exact ⟨a, List.mem_cons_self a l⟩
  have hene : e.1.1 ≠ e.1.2 := by
    have hok := h2 e he
    simp only [entryOK, Bool.and_eq_true] at hok
    simpa using hok.1.1
  have hm1 : e.1.1 ∈ idList am := (mem_idList am _).2 ⟨e, he, Or.inl rfl⟩
  have hm2 : e.1.2 ∈ idList am := (mem_idList am _).2 ⟨e, he, Or.inr rfl⟩
  have hlen2 : 2 ≤ (sortedIds am).length := by
    have hlen : (sortedIds am).length = (idList am).length :=
      (List.perm_insertionSort _ (idList am)).length_eq
    rw [hlen]
    have hsub : ({e.1.1, e.1.2} : Finset Int) ⊆ (idList am).toFinset := by
      intro z hz
      simp only [Finset.mem_insert, Finset.mem_singleton] at hz
      rcases hz with rfl | rfl
      · exact List.mem_toFinset.2 hm1
      · exact List.mem_toFinset.2 hm2
    have hcard := Finset.card_le_card hsub
    rw [Finset.card_pair hene] at hcard
    have hndidl : (idList am).Nodup := List.nodup_dedup _
    rwa [List.toFinset_card_of_nodup hndidl] at hcard
  simp only [validate_alignment_map, if_neg h1, hrun]
  rw [hsort, if_neg (by omega : ¬ (sortedIds am).length < 2),
    canonEntries_map_fst, if_pos h4.symm]

theorem validate_rejects (am : P3.AlignMap)
    (h2 : ∀ e ∈ am, entryOK e = true) (h3 : (canonKeys am).Nodup)
    (h4 : (canonKeys am).toFinset ≠ (combinations2 (sortedIds am)).toFinset) :
    ∃ msg, validate_alignment_map am = Except.error msg := by
  by_cases h1 : am = []
  · exact ⟨"malformed input", by simp [validate_alignment_map, h1]⟩
  obtain ⟨ids', hrun, hmem, hnd⟩ := validateLoop_ok_run am [] [] h2 (by simp) h3
  rw [List.nil_append] at hrun
  have hnd' : ids'.Nodup := hnd List.nodup_nil
  have hmem' : ∀ x, x ∈ ids' ↔ x ∈ idList am := by
    intro x
    rw [hmem x]
    simp
  have hperm : ids'.Perm (idList am) :=
    (List.perm_ext_iff_of_nodup hnd' (List.nodup_dedup _)).2 hmem'
  have hsort : ids'.insertionSort (· ≤ ·) = sortedIds am :=
    List.eq_of_perm_of_sorted
      ((List.perm_insertionSort _ ids').trans
        (hperm.trans (List.perm_insertionSort _ (idList am)).symm))
      (List.sorted_insertionSort _ _) (List.sorted_insertionSort _ _)
  by_cases hlen : (sortedIds am).length < 2
  · refine ⟨"malformed input", ?_⟩
    simp only [validate_alignment_map, if_neg h1, hrun]
    rw [hsort, if_pos hlen]
  · refine ⟨"malformed input", ?_⟩
    simp only [validate_alignment_map, if_neg h1, hrun]
    rw [hsort, if_neg hlen, canonEntries_map_fst,
      if_neg (fun hc => h4 hc.symm)]

/-- Claim C4: `validate_alignment_map` fails whenever a canonical key occurs
a second time (the first occurrence is kept; the second triggers the
failure, never a silent overwrite), fails whenever the canonicalised key
set differs from the complete set of unordered pairs over the mentioned
identifiers `S`, and accepts exactly the complete-graph maps with
well-formed entries, returning the sorted identifiers and the
canonicalised map. -/
theorem claim_C4_validator :
    (∀ (pre : P3.AlignMap) (e : P3.Entry) (rest : P3.AlignMap),
      (∀ x ∈ pre ++ [e], entryOK x = true) →
      orderedKey e.1 ∈ canonKeys pre →
      ∃ msg, validate_alignment_map (pre ++ e :: rest) = Except.error msg) ∧
    (∀ am : P3.AlignMap,
      (∀ e ∈ am, entryOK e = true) → (canonKeys am).Nodup →
      (canonKeys am).toFinset ≠ (combinations2 (sortedIds am)).toFinset →
      ∃ msg, validate_alignment_map am = Except.error msg) ∧
    (∀ am : P3.AlignMap, am ≠ [] →
      (∀ e ∈ am, entryOK e = true) → (canonKeys am).Nodup →
      2 ≤ (sortedIds am).length →
      (canonKeys am).toFinset = (combinations2 (sortedIds am)).toFinset →
      validate_alignment_map am = Except.ok (sortedIds am, canonEntries am)) := by
  refine ⟨?_, ?_, ?_⟩
  · intro pre e rest hok hdup
    have hne : pre ++ e :: rest ≠ [] := by simp
    obtain ⟨msg, hm⟩ := validateLoop_error_of_dup pre [] [] e rest
      (fun x hx => hok x (List.mem_append.2 (Or.inl hx)))
      (hok e (List.mem_append.2 (Or.inr (List.mem_cons_self e []))))
      (by simpa using hdup)
    exact ⟨msg, by simp only [validate_alignment_map, if_neg hne, hm]⟩
  · intro am hok hnd hne
    exact validate_rejects am hok hnd hne
  · intro am h1 hok hnd _ hcomp
    exact validate_accepts am h1 hok hnd hcomp

/-- Witness for claim C4: a duplicate canonical key `(1,2)`/`(2,1)` is
rejected, an incomplete pair set over `{1,2,3}` is rejected, and the
complete one-pair map over `{0,1}` is accepted. -/
theorem claim_C4_witness :
    (∃ msg, validate_alignment_map
        [((1, 2), (['A'], ['A'])), ((2, 1), (['C'], ['C']))]
      = Except.error msg) ∧
    (∃ msg, validate_alignment_map
        [((1, 2), (['A'], ['A'])), ((1, 3), (['C'], ['C']))]
      = Except.error msg) ∧
    validate_alignment_map [((0, 1), (['A'], ['T']))]
      = Except.ok (sortedIds [((0, 1), (['A'], ['T']))],
          canonEntries [((0, 1), (['A'], ['T']))]) :=
  ⟨claim_C4_validator.1 [((1, 2), (['A'], ['A']))] ((2, 1), (['C'], ['C'])) []
      (by decide) (by decide),
   claim_C4_validator.2.1 [((1, 2), (['A'], ['A'])), ((1, 3), (['C'], ['C']))]
      (by decide) (by decide) (by decide),
   claim_C4_validator.2.2 [((0, 1), (['A'], ['T']))] (by decide) (by decide)
      (by decide) (by decide) (by decide)⟩

theorem length_mset (M : List (List ℝ)) (r c : Nat) (x : ℝ) :
    (mset M r c x).length = M.length :=
  List.length_set M r _

theorem getD_mset_ne (M : List (List ℝ)) (r c : Nat) (x : ℝ) (r' : Nat)
    (h : r ≠ r') :
    (mset M r c x).getD r' [] = M.getD r' [] := by
  simp [mset, List.getD_eq_getElem?_getD, List.getElem?_set_ne h]

theorem getD_mset_self (M : List (List ℝ)) (r c : Nat) (x : ℝ)
    (hr : r < M.length) :
    (mset M r c x).getD r [] = (M.getD r []).set c x := by
  simp [mset, List.getD_eq_getElem?_getD, List.getElem?_set_self hr]

theorem mget_mset_self (M : List (List ℝ)) (n r c : Nat) (x : ℝ)
    (hsq : isSquare M n) (hr : r < n) (hc : c < n) :
    mget (mset M r c x) r c = x := by
  have hMl : M.length = n := hsq.1
  have hlen : (M.getD r []).length = n := hsq.2 r hr
  rw [mget, getD_mset_self M r c x (by omega),
    List.getD_eq_getElem?_getD,
    List.getElem?_set_self (by omega : c < (M.getD r []).length)]
  rfl

theorem mget_mset_ne (M : List (List ℝ)) (r c : Nat) (x : ℝ) (r' c' : Nat)
    (h : ¬ (r = r' ∧ c = c')) :
    mget (mset M r c x) r' c' = mget M r' c' := by
  by_cases hr : r = r'
  · subst hr
    have hc : c ≠ c' := fun hc => h ⟨rfl, hc⟩
    by_cases hrl : r < M.length
    · rw [mget, getD_mset_self M r c x hrl, mget,
        List.getD_eq_getElem?_getD, List.getD_eq_getElem?_getD,
        List.getElem?_set_ne hc]
      rw [List.getD_eq_getElem?_getD]
    · have h1 : (mset M r c x).getD r [] = [] := by
        rw [List.getD_eq_getElem?_getD,
          List.getElem?_eq_none (by rw [length_mset]; omega)]
        rfl
      have h2 : M.getD r [] = [] := by
        rw [List.getD_eq_getElem?_getD, List.getElem?_eq_none (by omega)]
        rfl
      rw [mget, mget, h1, h2]
  · rw [mget, getD_mset_ne M r c x r' hr, mget]

theorem mget_replicate (n r c : Nat) :
    mget (List.replicate n (List.replicate n (0 : ℝ))) r c = 0 := by
  rw [mget,
    List.getD_eq_getElem?_getD (List.replicate n (List.replicate n (0 : ℝ))) r [],
    List.getElem?_replicate]
  split
  · rw [Option.getD_some, List.getD_eq_getElem?_getD, List.getElem?_replicate]
    split
    · rfl
    · rfl
  · rfl

theorem isSquare_replicate (n : Nat) :
    isSquare (List.replicate n (List.replicate n (0 : ℝ))) n := by
  refine ⟨List.length_replicate n _, fun r hr => ?_⟩
  rw [List.getD_eq_getElem?_getD, List.getElem?_replicate, if_pos hr]
  exact List.length_replicate n _

theorem isSquare_mset (M : List (List ℝ)) (n r c : Nat) (x : ℝ)
    (h : isSquare M n) : isSquare (mset M r c x) n := by
  refine ⟨by rw [length_mset, h.1], fun r' hr' => ?_⟩
  by_cases hrr : r = r'
  · subst hrr
    have hrl : r < M.length := by rw [h.1]; omega
    rw [getD_mset_self M r c x hrl, List.length_set]
    exact h.2 r hr'
  · rw [getD_mset_ne M r c x r' hrr]
    exact h.2 r' hr'

theorem validateLoop_inv :
    ∀ (am norm0 : P3.AlignMap) (ids0 : List Int) (norm1 : P3.AlignMap)
      (ids1 : List Int),
      validateLoop am norm0 ids0 = Except.ok (norm1, ids1) →
      ((norm0.map Prod.fst).Nodup → (norm1.map Prod.fst).Nodup) ∧
      (ids0.Nodup → ids1.Nodup) ∧
      (∀ x ∈ ids0, x ∈ ids1) ∧
      (∀ e ∈ norm1,
        e ∈ norm0 ∨ (e.1.1 < e.1.2 ∧ e.1.1 ∈ ids1 ∧ e.1.2 ∈ ids1)) := by
  intro am
  induction am with
  | nil =>
      intro norm0 ids0 norm1 ids1 h
      simp only [validateLoop, Except.ok.injEq, Prod.mk.injEq] at h
      obtain ⟨h1, h2⟩ := h
      subst h1
      subst h2
      exact ⟨id, id, fun x hx => hx, fun e he => Or.inl he⟩
  | cons e rest ih =>
      intro norm0 ids0 norm1 ids1 h
      by_cases he : entryOK e = true
      · by_cases hdup : orderedKey e.1 ∈ norm0.map Prod.fst
        · simp [validateLoop, he, hdup] at h
        · rw [show validateLoop (e :: rest) norm0 ids0
              = validateLoop rest (norm0 ++ [(orderedKey e.1, e.2)])
                  (List.insert e.1.1 (List.insert e.1.2 ids0)) from by
              simp [validateLoop, he, hdup]] at h
          obtain ⟨hK, hN, hG, hE⟩ := ih _ _ _ _ h
          have hene : e.1.1 ≠ e.1.2 := by
            have := he
            simp only [entryOK, Bool.and_eq_true] at this
            simpa using this.1.1
          have hin1 : e.1.1 ∈ ids1 :=
            hG _ (List.mem_insert_self e.1.1 _)
          have hin2 : e.1.2 ∈ ids1 :=
            hG _ (List.mem_insert_of_mem (List.mem_insert_self e.1.2 ids0))
          refine ⟨?_, ?_, ?_, ?_⟩
          · intro hnd
            apply hK
            rw [List.map_append]
            rw [List.nodup_append]
            refine ⟨hnd, List.nodup_singleton _, ?_⟩
            intro a ha hb
            simp only [List.map_cons, List.map_nil, List.mem_cons,
              List.not_mem_nil, or_false] at hb
            exact hdup (hb ▸ ha)
          · intro hnd
            exact hN (List.Nodup.insert (List.Nodup.insert hnd))
          · intro x hx
            exact hG x (List.mem_insert_of_mem (List.mem_insert_of_mem hx))
          · intro e' he'
            rcases hE e' he' with hmem | hgood
            · rcases List.mem_append.mp hmem with hmem | hmem
              · exact Or.inl hmem
              · simp only [List.mem_cons, List.not_mem_nil, or_false] at hmem
                subst hmem
                refine Or.inr ⟨?_, ?_, ?_⟩
                · by_cases hlt : e.1.1 < e.1.2
                  · simp [orderedKey, hlt]
                  · have : e.1.2 < e.1.1 := by omega
                    simpa [orderedKey, hlt] using this
                · by_cases hlt : e.1.1 < e.1.2
                  · simpa [orderedKey, hlt] using hin1
                  · simpa [orderedKey, hlt] using hin2
                · by_cases hlt : e.1.1 < e.1.2
                  · simpa [orderedKey, hlt] using hin2
                  · simpa [orderedKey, hlt] using hin1
            · exact Or.inr hgood
      · simp [validateLoop, he] at h

theorem validate_ok_inv (am : P3.AlignMap) (ids : List Int)
    (norm : P3.AlignMap)
    (h : validate_alignment_map am = Except.ok (ids, norm)) :
    ids.Nodup ∧ (norm.map Prod.fst).Nodup ∧
      ∀ e ∈ norm, e.1.1 < e.1.2 ∧ e.1.1 ∈ ids ∧ e.1.2 ∈ ids := by
  by_cases h1 : am = []
  · simp [validate_alignment_map, h1] at h
  simp only [validate_alignment_map, if_neg h1] at h
  split at h
  · exact absurd h (by simp)
  next n0 ids0 heq =>
    by_cases hlen : (List.insertionSort (fun a b : Int => a ≤ b) ids0).length < 2
    · rw [if_pos hlen] at h
      exact absurd h (by simp)
    rw [if_neg hlen] at h
    by_cases hcomp : (combinations2
        (List.insertionSort (fun a b : Int => a ≤ b) ids0)).toFinset
      = (n0.map Prod.fst).toFinset
    swap
    · rw [if_neg hcomp] at h
      exact absurd h (by simp)
    · rw [if_pos hcomp] at h
      simp only [Except.ok.injEq, Prod.mk.injEq] at h
      obtain ⟨hids, hnorm⟩ := h
      subst hids
      subst hnorm
      obtain ⟨hK, hN, _, hE⟩ := validateLoop_inv am [] [] n0 ids0 heq
      have hperm := List.perm_insertionSort (fun a b : Int => a ≤ b) ids0
      refine ⟨hperm.nodup_iff.mpr (hN List.nodup_nil), hK (by simp), ?_⟩
      intro e he
      rcases hE e he with hmem | ⟨hlt, hi1, hi2⟩
      · exact absurd hmem (List.not_mem_nil e)
      · exact ⟨hlt, hperm.mem_iff.mpr hi1, hperm.mem_iff.mpr hi2⟩

theorem distLoop_spec (ids : List Int) :
    ∀ (es : P3.AlignMap) (M : List (List ℝ)),
      isSquare M ids.length →
      (∀ e ∈ es, e.1.1 ∈ ids ∧ e.1.2 ∈ ids ∧ e.1.1 < e.1.2) →
      (es.map Prod.fst).Nodup →
      ∃ M', distLoop ids es M = Except.ok M' ∧ isSquare M' ids.length ∧
        (∀ r c : Nat,
          (∀ e ∈ es,
            ¬ (r = ids.indexOf e.1.1 ∧ c = ids.indexOf e.1.2) ∧
            ¬ (r = ids.indexOf e.1.2 ∧ c = ids.indexOf e.1.1)) →
          mget M' r c = mget M r c) ∧
        (∀ e ∈ es, ∃ d : ℝ, compute_dist e.2.1 e.2.2 = Except.ok d ∧
          mget M' (ids.indexOf e.1.1) (ids.indexOf e.1.2) = d ∧
          mget M' (ids.indexOf e.1.2) (ids.indexOf e.1.1) = d) := by
  intro es
  induction es with
  | nil =>
      intro M hsq _ _
      exact ⟨M, by simp [distLoop], hsq, fun r c _ => rfl, by simp⟩
  | cons e rest ih =>
      intro M hsq hmem hkeys
      obtain ⟨d, hd⟩ := compute_dist_isOk e.2.1 e.2.2
      obtain ⟨h1, h2, hlt⟩ := hmem e (List.mem_cons_self e rest)
      have hkeys' : e.1 ∉ rest.map Prod.fst ∧ (rest.map Prod.fst).Nodup := by
        rw [List.map_cons, List.nodup_cons] at hkeys
        exact hkeys
      have hpilt : ids.indexOf e.1.1 < ids.length := List.indexOf_lt_length.2 h1
      have hpjlt : ids.indexOf e.1.2 < ids.length := List.indexOf_lt_length.2 h2
      have hpine : ids.indexOf e.1.1 ≠ ids.indexOf e.1.2 := fun hc =>
        (by omega : e.1.1 ≠ e.1.2) ((List.indexOf_inj h1 h2).1 hc)
      have hsq2 : isSquare
          (mset (mset M (ids.indexOf e.1.1) (ids.indexOf e.1.2) d)
            (ids.indexOf e.1.2) (ids.indexOf e.1.1) d) ids.length :=
        isSquare_mset _ _ _ _ _ (isSquare_mset _ _ _ _ _ hsq)
      obtain ⟨M', hrun, hsq', huntouched, hentries⟩ := ih
        (mset (mset M (ids.indexOf e.1.1) (ids.indexOf e.1.2) d)
          (ids.indexOf e.1.2) (ids.indexOf e.1.1) d)
        hsq2 (fun x hx => hmem x (List.mem_cons_of_mem e hx)) hkeys'.2
      have hcells : ∀ y ∈ rest,
          ¬ (ids.indexOf e.1.1 = ids.indexOf y.1.1 ∧
             ids.indexOf e.1.2 = ids.indexOf y.1.2) ∧
          ¬ (ids.indexOf e.1.1 = ids.indexOf y.1.2 ∧
             ids.indexOf e.1.2 = ids.indexOf y.1.1) := by
        intro y hy
        obtain ⟨hy1, hy2, hylt⟩ := hmem y (List.mem_cons_of_mem e hy)
        constructor
        · rintro ⟨ha, hb⟩
          have ha' : e.1.1 = y.1.1 := (List.indexOf_inj h1 hy1).1 ha
          have hb' : e.1.2 = y.1.2 := (List.indexOf_inj h2 hy2).1 hb
          apply hkeys'.1
          have : e.1 = y.1 := Prod.ext ha' hb'
          exact this ▸ List.mem_map_of_mem Prod.fst hy
        · rintro ⟨ha, hb⟩
          have ha' : e.1.1 = y.1.2 := (List.indexOf_inj h1 hy2).1 ha
          have hb' : e.1.2 = y.1.1 := (List.indexOf_inj h2 hy1).1 hb
          omega
      refine ⟨M', ?_, hsq', ?_, ?_⟩
      · rw [show distLoop ids (e :: rest) M
            = Except.bind (compute_dist e.2.1 e.2.2)
                (fun d2 => distLoop ids rest
                  (mset (mset M (ids.indexOf e.1.1) (ids.indexOf e.1.2) d2)
                    (ids.indexOf e.1.2) (ids.indexOf e.1.1) d2)) from rfl, hd]
        exact hrun
      · intro r c hnt
        have hnt_rest := fun x hx => hnt x (List.mem_cons_of_mem e hx)
        obtain ⟨hne1, hne2⟩ := hnt e (List.mem_cons_self e rest)
        rw [huntouched r c hnt_rest,
          mget_mset_ne _ _ _ _ _ _ (fun hc => hne2 ⟨hc.1.symm, hc.2.symm⟩),
          mget_mset_ne _ _ _ _ _ _ (fun hc => hne1 ⟨hc.1.symm, hc.2.symm⟩)]
      · intro x hx
        rcases List.mem_cons.mp hx with rfl | hx'
        · refine ⟨d, hd, ?_, ?_⟩
          · rw [huntouched _ _ hcells,
              mget_mset_ne (mset M (List.indexOf x.1.1 ids)
                  (List.indexOf x.1.2 ids) d)
                (List.indexOf x.1.2 ids) (List.indexOf x.1.1 ids) d
                (List.indexOf x.1.1 ids) (List.indexOf x.1.2 ids)
                (fun hc => hpine hc.2)]
            exact mget_mset_self M ids.length _ _ d hsq hpilt hpjlt
          · have hcells' : ∀ y ∈ rest,
                ¬ (ids.indexOf x.1.2 = ids.indexOf y.1.1 ∧
                   ids.indexOf x.1.1 = ids.indexOf y.1.2) ∧
                ¬ (ids.indexOf x.1.2 = ids.indexOf y.1.2 ∧
                   ids.indexOf x.1.1 = ids.indexOf y.1.1) := by
              intro y hy
              obtain ⟨hc1, hc2⟩ := hcells y hy
              exact ⟨fun hc => hc2 ⟨hc.2, hc.1⟩, fun hc => hc1 ⟨hc.2, hc.1⟩⟩
            rw [huntouched _ _ hcells',
              mget_mset_self _ _ _ _ _ (isSquare_mset _ _ _ _ _ hsq) hpjlt hpilt]
        · exact hentries x hx'

/-- Claim C5: for every alignment map accepted by `validate_alignment_map`,
`ComputeDistMatrix` returns a `|S| × |S|` matrix, symmetric with zero
diagonal, whose entry `(pos i, pos j)` (rows ordered by the sorted ids)
holds the `compute_dist` value of the alignment stored for the pair
`(i, j)`. -/
theorem claim_C5_matrix (am : P3.AlignMap) (ids : List Int)
    (norm : P3.AlignMap)
    (h : validate_alignment_map am = Except.ok (ids, norm)) :
    ∃ M, ComputeDistMatrix am = Except.ok M ∧
      M.length = ids.length ∧
      (∀ r, r < ids.length → (M.getD r []).length = ids.length) ∧
      (∀ r c : Nat, mget M r c = mget M c r) ∧
      (∀ k, k < ids.length → mget M k k = 0) ∧
      (∀ e ∈ norm, ∃ d : ℝ, compute_dist e.2.1 e.2.2 = Except.ok d ∧
        mget M (ids.indexOf e.1.1) (ids.indexOf e.1.2) = d ∧
        mget M (ids.indexOf e.1.2) (ids.indexOf e.1.1) = d) := by
  obtain ⟨hidnd, hknd, hE⟩ := validate_ok_inv am ids norm h
  obtain ⟨M, hrun, hsq, huntouched, hentries⟩ := distLoop_spec ids norm
    (List.replicate ids.length (List.replicate ids.length 0))
    (isSquare_replicate _)
    (fun e he => ⟨(hE e he).2.1, (hE e he).2.2, (hE e he).1⟩)
    hknd
  refine ⟨M, ?_, hsq.1, hsq.2, ?_, ?_, hentries⟩
  · simp only [ComputeDistMatrix, h]
    exact hrun
  · intro r c
    by_cases htouch : ∃ e ∈ norm,
      (r = ids.indexOf e.1.1 ∧ c = ids.indexOf e.1.2) ∨
      (r = ids.indexOf e.1.2 ∧ c = ids.indexOf e.1.1)
    · obtain ⟨e, he, hcase⟩ := htouch
      obtain ⟨d, _, hc1, hc2⟩ := hentries e he
      rcases hcase with ⟨rfl, rfl⟩ | ⟨rfl, rfl⟩
      · rw [hc1, hc2]
      · rw [hc2, hc1]
    · have hall : ∀ e ∈ norm,
          ¬((r = ids.indexOf e.1.1 ∧ c = ids.indexOf e.1.2) ∨
            (r = ids.indexOf e.1.2 ∧ c = ids.indexOf e.1.1)) :=
        fun e he hor => htouch ⟨e, he, hor⟩
      have hnt : ∀ e ∈ norm,
          ¬(r = ids.indexOf e.1.1 ∧ c = ids.indexOf e.1.2) ∧
          ¬(r = ids.indexOf e.1.2 ∧ c = ids.indexOf e.1.1) :=
        fun e he => not_or.mp (hall e he)
      have hnt' : ∀ e ∈ norm,
          ¬(c = ids.indexOf e.1.1 ∧ r = ids.indexOf e.1.2) ∧
          ¬(c = ids.indexOf e.1.2 ∧ r = ids.indexOf e.1.1) :=
        fun e he => ⟨fun hc => (hnt e he).2 ⟨hc.2, hc.1⟩,
          fun hc => (hnt e he).1 ⟨hc.2, hc.1⟩⟩
      rw [huntouched r c hnt, huntouched c r hnt', mget_replicate,
        mget_replicate]
  · intro k hk
    have hnt : ∀ e ∈ norm,
        ¬(k = ids.indexOf e.1.1 ∧ k = ids.indexOf e.1.2) ∧
        ¬(k = ids.indexOf e.1.2 ∧ k = ids.indexOf e.1.1) := by
      intro e he
      have hne : ids.indexOf e.1.1 ≠ ids.indexOf e.1.2 := fun hc =>
        absurd ((List.indexOf_inj (hE e he).2.1 (hE e he).2.2).1 hc)
          (by have := (hE e he).1; omega)
      exact ⟨fun hc => hne (hc.1.symm.trans hc.2),
        fun hc => hne (hc.2.symm.trans hc.1)⟩
    rw [huntouched k k hnt, mget_replicate]

/-- Witness for claim C5 at the accepted one-pair map over `{0, 1}`. -/
theorem claim_C5_witness :
    ∃ M, ComputeDistMatrix [((0, 1), (['A'], ['T']))] = Except.ok M ∧
      M.length = ([0, 1] : List Int).length ∧
      (∀ r, r < ([0, 1] : List Int).length →
        (M.getD r []).length = ([0, 1] : List Int).length) ∧
      (∀ r c : Nat, mget M r c = mget M c r) ∧
      (∀ k, k < ([0, 1] : List Int).length → mget M k k = 0) ∧
      (∀ e ∈ ([((0, 1), (['A'], ['T']))] : P3.AlignMap), ∃ d : ℝ,
        compute_dist e.2.1 e.2.2 = Except.ok d ∧
        mget M (([0, 1] : List Int).indexOf e.1.1)
            (([0, 1] : List Int).indexOf e.1.2) = d ∧
        mget M (([0, 1] : List Int).indexOf e.1.2)
            (([0, 1] : List Int).indexOf e.1.1) = d) :=
  claim_C5_matrix [((0, 1), (['A'], ['T']))] [0, 1]
    [((0, 1), (['A'], ['T']))] (by rfl)
